import Mathlib

/-!
Verification of the commit/reconciliation engine of the metabase package
(`satellite/metainfo/metabase/commit_object.go`).

The Go functions are embedded as pure Lean functions.  The transactional
store (the `objects` and `segments` tables restricted to one object stream)
is modelled as an explicit state value; the SQL statements of the source
become list operations on that state, and `txutil.WithTx`'s rollback-on-error
becomes "on error the original store value is returned".
-/

namespace Metabase

/-- Modelled from the spec: `SegmentPosition` — {part number, index within
part}, ordered lexicographically with part as the major component.  The Go
type lives outside the provided sources; only its field structure and total
order are needed here. -/
structure SegmentPosition where
  part : Nat
  index : Nat
deriving DecidableEq, Repr

/-- Modelled from the spec: `SegmentPosition.Less` — the total order
`(part, index)` lexicographic. -/
def SegmentPosition.less (a b : SegmentPosition) : Bool :=
  a.part < b.part || (a.part == b.part && a.index < b.index)

/-- The ordering as a Prop, used for sortedness hypotheses. -/
abbrev posLt (a b : SegmentPosition) : Prop := a.less b = true

instance : IsAntisymm SegmentPosition posLt :=
  ⟨fun a b h h' => by
    simp only [posLt, SegmentPosition.less, Bool.or_eq_true, Bool.and_eq_true,
      decide_eq_true_eq, beq_iff_eq] at h h'
    exfalso
    omega⟩

instance : IsTrans SegmentPosition posLt :=
  ⟨fun a b c h₁ h₂ => by
    simp only [posLt, SegmentPosition.less, Bool.or_eq_true, Bool.and_eq_true,
      decide_eq_true_eq, beq_iff_eq] at *
    omega⟩

/-- Record `segmentInfoForCommit` — database state of one segment row as read by
`fetchSegmentsForCommit` (position, encrypted_size, plain_offset, plain_size). -/
structure segmentInfoForCommit where
  position : SegmentPosition
  encryptedSize : Int
  plainOffset : Int
  plainSize : Int
deriving DecidableEq, Repr

/-- Record `segmentToCommit` — one entry of the commit list built by
`determineCommitActions`. -/
structure segmentToCommit where
  position : SegmentPosition
  oldPlainOffset : Int
  plainSize : Int
  encryptedSize : Int
deriving DecidableEq, Repr

/-- One callback invocation of `diffSegmentsWithDatabase`: the callback is
called with both pointers (`a` and `b` non-nil), only the client position
(`b == nil`), or only the database row (`a == nil`). -/
inductive DiffEvent where
  | both (a : SegmentPosition) (b : segmentInfoForCommit)
  | onlyClient (a : SegmentPosition)
  | onlyDB (b : segmentInfoForCommit)
deriving DecidableEq, Repr

/-- Function `diffSegmentsWithDatabase` — merge-walk over the two ordered sequences.
The Go version reports each element through a callback; here the sequence of
callback invocations is returned as a list, in invocation order. -/
def diffSegmentsWithDatabase :
    List SegmentPosition → List segmentInfoForCommit → List DiffEvent
  | [], bs => bs.map DiffEvent.onlyDB
  | a :: as, [] => (a :: as).map DiffEvent.onlyClient
  | a :: as, b :: bs =>
    if a = b.position then
      DiffEvent.both a b :: diffSegmentsWithDatabase as bs
    else if a.less b.position then
      DiffEvent.onlyClient a :: diffSegmentsWithDatabase as (b :: bs)
    else
      DiffEvent.onlyDB b :: diffSegmentsWithDatabase (a :: as) bs
termination_by as bs => as.length + bs.length

/-- The commit entries accumulated by `determineCommitActions`'s callback:
for a matched pair the client position is kept together with the store row's
plain offset, plain size and encrypted size. -/
def commitOf (events : List DiffEvent) : List segmentToCommit :=
  events.filterMap fun e =>
    match e with
    | DiffEvent.both a b => some ⟨a, b.plainOffset, b.plainSize, b.encryptedSize⟩
    | _ => none

/-- The delete positions accumulated by `determineCommitActions`'s callback
(`a == nil` case). -/
def toDeleteOf (events : List DiffEvent) : List SegmentPosition :=
  events.filterMap fun e =>
    match e with
    | DiffEvent.onlyDB b => some b.position
    | _ => none

/-- The invalid-segment errors accumulated into the `errs.Group`
(`b == nil` case): client positions with no database row. -/
def invalidOf (events : List DiffEvent) : List SegmentPosition :=
  events.filterMap fun e =>
    match e with
    | DiffEvent.onlyClient a => some a
    | _ => none

/-- Error taxonomy of the commit operation. `validation` carries the
offending adjacent pair from `verifySegmentOrder`; `consistency` carries the
aggregated list of client positions with no committed segment; `notFound` is
the "object with specified version and pending status is missing" error of
the conditional update; `infrastructure` stands for the wrapped store errors
(for example the affected-rows mismatch in `updateSegmentOffsets`). -/
inductive CommitError where
  | validation (last next : SegmentPosition)
  | consistency (invalid : List SegmentPosition)
  | notFound
  | infrastructure
deriving DecidableEq, Repr

deriving instance DecidableEq for Except

/-- Function `determineCommitActions` — classifies each diff event and fails with the
aggregated error when any client segment has no database row. -/
def determineCommitActions (segments : List SegmentPosition)
    (segmentsInDatabase : List segmentInfoForCommit) :
    Except CommitError (List segmentToCommit × List SegmentPosition) :=
  let events := diffSegmentsWithDatabase segments segmentsInDatabase
  if (invalidOf events).isEmpty then
    Except.ok (commitOf events, toDeleteOf events)
  else
    Except.error (CommitError.consistency (invalidOf events))

/-- The inner loop of `verifySegmentOrder`: `last` is the previously seen
position, the list holds the positions still to check. -/
def verifySegmentOrderLoop (last : SegmentPosition) :
    List SegmentPosition → Except CommitError Unit
  | [] => Except.ok ()
  | next :: rest =>
    if last.less next then verifySegmentOrderLoop next rest
    else Except.error (CommitError.validation last next)

/-- Function `verifySegmentOrder` — rejects a segment list that is not strictly
ascending; the empty list is accepted. -/
def verifySegmentOrder : List SegmentPosition → Except CommitError Unit
  | [] => Except.ok ()
  | p :: rest => verifySegmentOrderLoop p rest

/-- One row of the `segments` table for the stream being committed.
`rootPieceID = 0` models a zero `storj.PieceID` (an inline segment); the
remote piece list is kept abstract as a list of node identifiers. -/
structure SegmentRow where
  position : SegmentPosition
  encryptedSize : Int
  plainOffset : Int
  plainSize : Int
  rootPieceID : Nat
  pieces : List Nat
deriving DecidableEq, Repr

/-- Record `DeletedSegmentInfo` — the columns returned by the deleting query
(`root_piece_id, remote_pieces`) for segments reported to the caller. -/
structure DeletedSegmentInfo where
  rootPieceID : Nat
  pieces : List Nat
deriving DecidableEq, Repr

/-- Object status: the commit operation only distinguishes `pendingStatus`
and `committedStatus`. -/
inductive ObjectStatus where
  | pending
  | committed
deriving DecidableEq, Repr

/-- The fields of the `objects` row that the commit operation reads or
writes (metadata blobs are omitted: they are copied through unchanged and no
claim concerns them). -/
structure ObjectRow where
  status : ObjectStatus
  segmentCount : Int
  totalPlainSize : Int
  totalEncryptedSize : Int
  fixedSegmentSize : Int
deriving DecidableEq, Repr

/-- The transactional store restricted to one object stream: the object row
for the commit's identity (or `none` when no such row exists) and the
segment rows of the stream.  The `ORDER BY position` of the snapshot query
is represented by sortedness hypotheses on `segments` in the theorems. -/
structure Store where
  object : Option ObjectRow
  segments : List SegmentRow
deriving DecidableEq, Repr

/-- Projection of a segment row to the columns selected by
`fetchSegmentsForCommit`. -/
def segmentInfo (r : SegmentRow) : segmentInfoForCommit :=
  ⟨r.position, r.encryptedSize, r.plainOffset, r.plainSize⟩

/-- Function `fetchSegmentsForCommit` — the snapshot query
`SELECT position, encrypted_size, plain_offset, plain_size … ORDER BY position`. -/
def fetchSegmentsForCommit (store : Store) : List segmentInfoForCommit :=
  store.segments.map segmentInfo

/-- The update arrays built by `updateSegmentOffsets`: walking the commit
list with the running `expectedOffset`, a `(position, plain_offset)` pair is
emitted for every segment whose stored offset differs from the expected
one. -/
def computePlainOffsetUpdates (expectedOffset : Int) :
    List segmentToCommit → List (SegmentPosition × Int)
  | [] => []
  | u :: rest =>
    if u.oldPlainOffset ≠ expectedOffset then
      (u.position, expectedOffset) ::
        computePlainOffsetUpdates (expectedOffset + u.plainSize) rest
    else
      computePlainOffsetUpdates (expectedOffset + u.plainSize) rest

/-- Effect of the batched `UPDATE segments SET plain_offset = …` statement:
each row whose position occurs in the update arrays gets the new offset. -/
def applyPlainOffsetUpdates (updates : List (SegmentPosition × Int))
    (rows : List SegmentRow) : List SegmentRow :=
  rows.map fun r =>
    match updates.find? (fun u => u.1 == r.position) with
    | some u => { r with plainOffset := u.2 }
    | none => r

/-- Function `updateSegmentOffsets` — returns the segment rows after the batched
offset update, or the wrapped error when the affected-row count does not
match the number of update requests. -/
def updateSegmentOffsets (rows : List SegmentRow) (updates : List segmentToCommit) :
    Except CommitError (List SegmentRow) :=
  if updates.isEmpty then Except.ok rows
  else
    let ups := computePlainOffsetUpdates 0 updates
    if ups.isEmpty then Except.ok rows
    else
      let affected := (rows.filter fun r => ups.any fun u => u.1 == r.position).length
      if affected = ups.length then Except.ok (applyPlainOffsetUpdates ups rows)
      else Except.error CommitError.infrastructure

/-- The `DeletedSegmentInfo` scanned from one deleted row. -/
def deletedInfo (r : SegmentRow) : DeletedSegmentInfo :=
  ⟨r.rootPieceID, r.pieces⟩

/-- Function `deleteSegmentsNotInCommit` — deletes the rows at the listed positions
and returns the remaining rows together with the `DeletedSegmentInfo` of the
deleted remote segments (inline segments, root piece id zero, are skipped). -/
def deleteSegmentsNotInCommit (rows : List SegmentRow)
    (segments : List SegmentPosition) : List SegmentRow × List DeletedSegmentInfo :=
  if segments.isEmpty then (rows, [])
  else
    ((rows.filter fun r => !(segments.contains r.position)),
     ((rows.filter fun r => segments.contains r.position).filter
        fun r => r.rootPieceID != 0).map deletedInfo)

/-- The `for i, seg := range finalSegments` loop computing
`fixedSegmentSize`: `n` is `len(finalSegments)`, `i` the current index, and
the condition `i < n - 1` selects the non-last segments for the size
comparison.  A violation sets the value to `-1` and breaks. -/
def fixedLoop (fixed : Int) (n : Nat) : Nat → List segmentToCommit → Int
  | _, [] => fixed
  | i, seg :: rest =>
    if seg.position.part ≠ 0 then -1
    else if i < n - 1 ∧ seg.encryptedSize ≠ fixed then -1
    else fixedLoop fixed n (i + 1) rest

/-- The `fixedSegmentSize` aggregate of `CommitObjectWithSegments`: `0` for
an empty commit set, otherwise the loop above started from the first
segment's encrypted size. -/
def fixedSegmentSize : List segmentToCommit → Int
  | [] => 0
  | seg :: rest => fixedLoop seg.encryptedSize (seg :: rest).length 0 (seg :: rest)

/-- The transaction body of `CommitObjectWithSegments` (the closure passed
to `txutil.WithTx`): snapshot, reconcile, rewrite offsets, delete orphans,
compute aggregates, and perform the conditional `UPDATE objects … WHERE …
status = pendingStatus`.  Matching zero rows (`sql.ErrNoRows`) is the
`notFound` error. -/
def commitTx (store : Store) (segments : List SegmentPosition) :
    Except CommitError (Store × ObjectRow × List DeletedSegmentInfo) :=
  match determineCommitActions segments (fetchSegmentsForCommit store) with
  | Except.error e => Except.error e
  | Except.ok (finalSegments, segmentsToDelete) =>
    match updateSegmentOffsets store.segments finalSegments with
    | Except.error e => Except.error e
    | Except.ok rowsAfterOffsets =>
      match deleteSegmentsNotInCommit rowsAfterOffsets segmentsToDelete with
      | (rowsAfterDelete, deletedSegments) =>
        match store.object with
        | none => Except.error CommitError.notFound
        | some obj =>
          if obj.status = ObjectStatus.pending then
            let newObject : ObjectRow :=
              { status := ObjectStatus.committed
                segmentCount := (finalSegments.length : Int)
                totalPlainSize := (finalSegments.map fun s => s.plainSize).sum
                totalEncryptedSize := (finalSegments.map fun s => s.encryptedSize).sum
                fixedSegmentSize := fixedSegmentSize finalSegments }
            Except.ok ({ object := some newObject, segments := rowsAfterDelete },
              newObject, deletedSegments)
          else
            Except.error CommitError.notFound

/-- Function `CommitObjectWithSegments` — input validation, then the transaction;
`txutil.WithTx` rolls back on error, so on any error the original store is
returned unchanged. -/
def commitObjectWithSegments (store : Store) (segments : List SegmentPosition) :
    Store × Except CommitError (ObjectRow × List DeletedSegmentInfo) :=
  match verifySegmentOrder segments with
  | Except.error e => (store, Except.error e)
  | Except.ok _ =>
    match commitTx store segments with
    | Except.ok (s, obj, del) => (s, Except.ok (obj, del))
    | Except.error e => (store, Except.error e)

/-- The commit-list entry corresponding to a store row (used to state what
`determineCommitActions` produces for matched rows). -/
def toCommit (r : SegmentRow) : segmentToCommit :=
  ⟨r.position, r.plainOffset, r.plainSize, r.encryptedSize⟩

/-- Rows with their plain offsets replaced by the running sum of the
preceding plain sizes, starting from `e` — the intended post-state of the
offset rewriter and the spec's offset invariant when `e = 0`. -/
def withOffsets (e : Int) : List SegmentRow → List SegmentRow
  | [] => []
  | r :: rest => { r with plainOffset := e } :: withOffsets (e + r.plainSize) rest

/-- Sortedness of a position list: strictly ascending under the
`SegmentPosition` order (`ORDER BY position` / client contract). -/
abbrev posSorted (l : List SegmentPosition) : Prop := l.Pairwise posLt

/-- Sortedness of segment rows by position. -/
abbrev rowsSorted (rows : List SegmentRow) : Prop :=
  posSorted (rows.map SegmentRow.position)

/-- Sortedness of the fetched snapshot by position. -/
abbrev infosSorted (infos : List segmentInfoForCommit) : Prop :=
  posSorted (infos.map segmentInfoForCommit.position)

/-- Restatement of the spec's `fixed_segment_size` rule, written from the
spec's words for the refinement claim: sentinel `-1` if any segment has a
non-zero part number or any non-last segment's encrypted size differs from
the first segment's; otherwise the common (first) encrypted size; `0` for an
empty commit set. -/
def fixedSegmentSizeSpec (segs : List segmentToCommit) : Int :=
  match segs with
  | [] => 0
  | first :: _ =>
    if (segs.any fun s => s.position.part != 0) ||
       (segs.dropLast.any fun s => s.encryptedSize != first.encryptedSize) then
      -1
    else
      first.encryptedSize

/-- The running expected plain offsets of a commit list, starting at `e`:
entry `i` is paired with `e` plus the sum of the plain sizes of the entries
before it (the spec's "running sum of preceding plain sizes"). -/
def plainOffsets (e : Int) : List segmentToCommit → List Int
  | [] => []
  | u :: rest => e :: plainOffsets (e + u.plainSize) rest

/-- The store rows the client still references: the commit call keeps
exactly these. -/
def keptRows (as : List SegmentPosition) (rows : List SegmentRow) : List SegmentRow :=
  rows.filter fun r => decide (r.position ∈ as)

/-- The `DeletedSegmentInfo` list a successful commit returns: the dropped
rows (positions the client no longer references) that are remote segments. -/
def deletedInfos (as : List SegmentPosition) (rows : List SegmentRow) :
    List DeletedSegmentInfo :=
  ((rows.filter fun r => decide (r.position ∉ as)).filter
      fun r => r.rootPieceID != 0).map deletedInfo

/-- The object row a successful commit writes, given the kept rows. -/
def committedObject (kept : List SegmentRow) : ObjectRow :=
  { status := ObjectStatus.committed
    segmentCount := (kept.length : Int)
    totalPlainSize := ((kept.map toCommit).map fun s => s.plainSize).sum
    totalEncryptedSize := ((kept.map toCommit).map fun s => s.encryptedSize).sum
    fixedSegmentSize := fixedSegmentSize (kept.map toCommit) }

/-! ### Concrete inputs used by the witnesses -/

/-- A client list referencing positions 0 and 2 of part 0. -/
def wA : List SegmentPosition := [⟨0, 0⟩, ⟨0, 2⟩]

/-- A client list claiming position 3, which no store row has. -/
def wAMissing : List SegmentPosition := [⟨0, 0⟩, ⟨0, 3⟩]

/-- A client list referencing all three store positions. -/
def wAFull : List SegmentPosition := [⟨0, 0⟩, ⟨0, 1⟩, ⟨0, 2⟩]

/-- A client list violating the strict order (decreasing pair). -/
def wABad : List SegmentPosition := [⟨0, 1⟩, ⟨0, 0⟩]

/-- Store rows at positions 0, 1, 2 with contiguous offsets; position 1 is
an inline segment (zero root piece id). -/
def wRows : List SegmentRow :=
  [⟨⟨0, 0⟩, 5, 0, 4, 1, [7]⟩, ⟨⟨0, 1⟩, 6, 4, 3, 0, []⟩, ⟨⟨0, 2⟩, 7, 7, 2, 9, [8]⟩]

/-- Same rows but position 1 is a remote segment (root piece id 55). -/
def wRowsRemote : List SegmentRow :=
  [⟨⟨0, 0⟩, 5, 0, 4, 1, [7]⟩, ⟨⟨0, 1⟩, 6, 4, 3, 55, [3]⟩, ⟨⟨0, 2⟩, 7, 7, 2, 9, [8]⟩]

/-- A store with a pending object row and the rows above. -/
def wStore : Store := ⟨some ⟨ObjectStatus.pending, 0, 0, 0, 0⟩, wRows⟩

/-- The same store but with the remote variant of position 1. -/
def wStoreRemote : Store := ⟨some ⟨ObjectStatus.pending, 0, 0, 0, 0⟩, wRowsRemote⟩

/-- A store whose object row is already committed. -/
def wStoreCommitted : Store := ⟨some ⟨ObjectStatus.committed, 2, 6, 12, 5⟩, wRows⟩

/-! ### Basic facts about the position order -/

theorem posLt_ne {a b : SegmentPosition} (h : posLt a b) : a ≠ b := by
  intro he
  subst he
  simp [posLt, SegmentPosition.less] at h

theorem posLt_trans {a b c : SegmentPosition} (h₁ : posLt a b) (h₂ : posLt b c) :
    posLt a c := Trans.trans h₁ h₂

theorem posLt_total {a b : SegmentPosition} (hne : ¬ a = b) (hnlt : ¬ posLt a b) :
    posLt b a := by
  simp only [posLt, SegmentPosition.less, Bool.or_eq_true, Bool.and_eq_true,
    decide_eq_true_eq, beq_iff_eq] at *
  rcases Nat.lt_trichotomy a.part b.part with h | h | h
  · exact absurd (Or.inl h) hnlt
  · rcases Nat.lt_trichotomy a.index b.index with h' | h' | h'
    · exact absurd (Or.inr ⟨h, h'⟩) hnlt
    · exact absurd (by cases a; cases b; cases h; cases h'; rfl) hne
    · exact Or.inr ⟨h.symm, h'⟩
  · exact Or.inl h

theorem sorted_head_lt {x : SegmentPosition} {l : List SegmentPosition}
    (h : posSorted (x :: l)) {p : SegmentPosition} (hp : p ∈ l) : posLt x p :=
  (List.pairwise_cons.mp h).1 p hp

theorem posSorted_tail {x : SegmentPosition} {l : List SegmentPosition}
    (h : posSorted (x :: l)) : posSorted l :=
  (List.pairwise_cons.mp h).2

/-! ### Unfolding equations for the merge walk -/

theorem diff_nil_left (bs : List segmentInfoForCommit) :
    diffSegmentsWithDatabase [] bs = bs.map DiffEvent.onlyDB := by
  cases bs <;> simp [diffSegmentsWithDatabase]

theorem diff_nil_right (a : SegmentPosition) (as : List SegmentPosition) :
    diffSegmentsWithDatabase (a :: as) [] = (a :: as).map DiffEvent.onlyClient := by
  simp [diffSegmentsWithDatabase]

theorem diff_cons_eq (as : List SegmentPosition) (b : segmentInfoForCommit)
    (bs : List segmentInfoForCommit) :
    diffSegmentsWithDatabase (b.position :: as) (b :: bs) =
      DiffEvent.both b.position b :: diffSegmentsWithDatabase as bs := by
  simp [diffSegmentsWithDatabase]

theorem diff_cons_lt {a : SegmentPosition} (as : List SegmentPosition)
    {b : segmentInfoForCommit} (bs : List segmentInfoForCommit)
    (h : posLt a b.position) :
    diffSegmentsWithDatabase (a :: as) (b :: bs) =
      DiffEvent.onlyClient a :: diffSegmentsWithDatabase as (b :: bs) := by
  simp [diffSegmentsWithDatabase, posLt_ne h, h]

theorem diff_cons_gt {a : SegmentPosition} (as : List SegmentPosition)
    {b : segmentInfoForCommit} (bs : List segmentInfoForCommit)
    (hne : ¬ a = b.position) (hnlt : ¬ posLt a b.position) :
    diffSegmentsWithDatabase (a :: as) (b :: bs) =
      DiffEvent.onlyDB b :: diffSegmentsWithDatabase (a :: as) bs := by
  simp [diffSegmentsWithDatabase, hne, hnlt]

/-! ### The three accumulators over diff events -/

theorem invalidOf_nil : invalidOf [] = [] := rfl

theorem invalidOf_both (a : SegmentPosition) (b : segmentInfoForCommit)
    (es : List DiffEvent) : invalidOf (DiffEvent.both a b :: es) = invalidOf es := rfl

theorem invalidOf_onlyClient (a : SegmentPosition) (es : List DiffEvent) :
    invalidOf (DiffEvent.onlyClient a :: es) = a :: invalidOf es := rfl

theorem invalidOf_onlyDB (b : segmentInfoForCommit) (es : List DiffEvent) :
    invalidOf (DiffEvent.onlyDB b :: es) = invalidOf es := rfl

theorem invalidOf_map_onlyDB (bs : List segmentInfoForCommit) :
    invalidOf (bs.map DiffEvent.onlyDB) = [] := by
  induction bs with
  | nil => rfl
  | cons b bs ih => simpa [invalidOf_onlyDB] using ih

theorem invalidOf_map_onlyClient (as : List SegmentPosition) :
    invalidOf (as.map DiffEvent.onlyClient) = as := by
  induction as with
  | nil => rfl
  | cons a as ih => simpa [invalidOf_onlyClient] using ih

theorem commitOf_nil : commitOf [] = [] := rfl

theorem commitOf_both (a : SegmentPosition) (b : segmentInfoForCommit)
    (es : List DiffEvent) :
    commitOf (DiffEvent.both a b :: es) =
      ⟨a, b.plainOffset, b.plainSize, b.encryptedSize⟩ :: commitOf es := rfl

theorem commitOf_onlyClient (a : SegmentPosition) (es : List DiffEvent) :
    commitOf (DiffEvent.onlyClient a :: es) = commitOf es := rfl

theorem commitOf_onlyDB (b : segmentInfoForCommit) (es : List DiffEvent) :
    commitOf (DiffEvent.onlyDB b :: es) = commitOf es := rfl

theorem commitOf_map_onlyDB (bs : List segmentInfoForCommit) :
    commitOf (bs.map DiffEvent.onlyDB) = [] := by
  induction bs with
  | nil => rfl
  | cons b bs ih => simpa [commitOf_onlyDB] using ih

theorem commitOf_map_onlyClient (as : List SegmentPosition) :
    commitOf (as.map DiffEvent.onlyClient) = [] := by
  induction as with
  | nil => rfl
  | cons a as ih => simpa [commitOf_onlyClient] using ih

theorem toDeleteOf_nil : toDeleteOf [] = [] := rfl

theorem toDeleteOf_both (a : SegmentPosition) (b : segmentInfoForCommit)
    (es : List DiffEvent) : toDeleteOf (DiffEvent.both a b :: es) = toDeleteOf es := rfl

theorem toDeleteOf_onlyClient (a : SegmentPosition) (es : List DiffEvent) :
    toDeleteOf (DiffEvent.onlyClient a :: es) = toDeleteOf es := rfl

theorem toDeleteOf_onlyDB (b : segmentInfoForCommit) (es : List DiffEvent) :
    toDeleteOf (DiffEvent.onlyDB b :: es) = b.position :: toDeleteOf es := rfl

theorem toDeleteOf_map_onlyDB (bs : List segmentInfoForCommit) :
    toDeleteOf (bs.map DiffEvent.onlyDB) = bs.map segmentInfoForCommit.position := by
  induction bs with
  | nil => rfl
  | cons b bs ih => simpa [toDeleteOf_onlyDB] using ih

theorem toDeleteOf_map_onlyClient (as : List SegmentPosition) :
    toDeleteOf (as.map DiffEvent.onlyClient) = [] := by
  induction as with
  | nil => rfl
  | cons a as ih => simpa [toDeleteOf_onlyClient] using ih

/-! ### Characterization of the merge walk on sorted inputs -/

theorem invalidOf_diff (as : List SegmentPosition) (bs : List segmentInfoForCommit)
    (ha : posSorted as) (hb : infosSorted bs) :
    invalidOf (diffSegmentsWithDatabase as bs) =
      as.filter fun a => decide (a ∉ bs.map segmentInfoForCommit.position) := by
  induction as, bs using diffSegmentsWithDatabase.induct with
  | case1 bs => simp [diff_nil_left, invalidOf_map_onlyDB]
  | case2 a as =>
    simp [diff_nil_right, invalidOf_onlyClient, invalidOf_map_onlyClient]
  | case3 as b bs ih =>
    have h1 : ∀ x ∈ as, ¬ x = b.position := fun x hx he =>
      (posLt_ne (sorted_head_lt ha hx)) he.symm
    rw [diff_cons_eq, invalidOf_both, ih (posSorted_tail ha) (posSorted_tail hb),
      List.map_cons, List.filter_cons]
    rw [if_neg (by simp)]
    exact List.filter_congr fun x hx => by simp [h1 x hx]
  | case4 a as b bs hne hlt ih =>
    have h2 : a ∉ (b :: bs).map segmentInfoForCommit.position := by
      simp only [List.map_cons, List.mem_cons, List.mem_map, not_or]
      refine ⟨hne, ?_⟩
      rintro ⟨c, hc, hcp⟩
      exact posLt_ne (posLt_trans hlt (hcp ▸ sorted_head_lt hb
        (List.mem_map.mpr ⟨c, hc, rfl⟩))) rfl
    rw [diff_cons_lt as bs hlt, invalidOf_onlyClient, ih (posSorted_tail ha) hb,
      List.filter_cons]
    rw [if_pos (by simpa using h2)]
  | case5 a as b bs hne hnlt ih =>
    have hba : posLt b.position a := posLt_total hne hnlt
    have h3 : ∀ x ∈ a :: as, ¬ x = b.position := by
      intro x hx he
      rcases List.mem_cons.mp hx with rfl | hx'
      · exact hne he
      · exact posLt_ne (posLt_trans hba (sorted_head_lt ha hx')) he.symm
    rw [diff_cons_gt as bs hne hnlt, invalidOf_onlyDB, ih ha (posSorted_tail hb),
      List.map_cons]
    exact List.filter_congr fun x hx => by simp [h3 x hx]

theorem commitOf_diff (as : List SegmentPosition) (bs : List segmentInfoForCommit)
    (ha : posSorted as) (hb : infosSorted bs) :
    commitOf (diffSegmentsWithDatabase as bs) =
      (bs.filter fun b => decide (b.position ∈ as)).map
        fun b => (⟨b.position, b.plainOffset, b.plainSize, b.encryptedSize⟩ : segmentToCommit) := by
  induction as, bs using diffSegmentsWithDatabase.induct with
  | case1 bs => simp [diff_nil_left, commitOf_map_onlyDB]
  | case2 a as =>
    simp [diff_nil_right, commitOf_onlyClient, commitOf_map_onlyClient]
  | case3 as b bs ih =>
    have h1 : ∀ c ∈ bs, ¬ c.position = b.position := fun c hc he =>
      posLt_ne (he ▸ sorted_head_lt hb (List.mem_map.mpr ⟨c, hc, rfl⟩)) rfl
    rw [diff_cons_eq, commitOf_both, ih (posSorted_tail ha) (posSorted_tail hb),
      List.filter_cons]
    rw [if_pos (by simp)]
    rw [List.map_cons]
    congr 1
    exact congrArg _ (List.filter_congr fun c hc => by simp [h1 c hc])
  | case4 a as b bs hne hlt ih =>
    have h2 : ∀ c ∈ b :: bs, ¬ c.position = a := by
      intro c hc he
      rcases List.mem_cons.mp hc with rfl | hc'
      · exact hne (he ▸ rfl)
      · exact posLt_ne (posLt_trans hlt (sorted_head_lt hb
          (List.mem_map.mpr ⟨c, hc', rfl⟩))) (he ▸ rfl)
    rw [diff_cons_lt as bs hlt, commitOf_onlyClient, ih (posSorted_tail ha) hb]
    exact congrArg _ (List.filter_congr fun c hc => by simp [h2 c hc])
  | case5 a as b bs hne hnlt ih =>
    have hba : posLt b.position a := posLt_total hne hnlt
    have h3 : b.position ∉ a :: as := by
      intro hmem
      rcases List.mem_cons.mp hmem with he | hmem'
      · exact hne he.symm
      · exact posLt_ne (posLt_trans hba (sorted_head_lt ha hmem')) rfl
    rw [diff_cons_gt as bs hne hnlt, commitOf_onlyDB, ih ha (posSorted_tail hb),
      List.filter_cons]
    rw [if_neg (by simpa using h3)]

theorem toDeleteOf_diff (as : List SegmentPosition) (bs : List segmentInfoForCommit)
    (ha : posSorted as) (hb : infosSorted bs) :
    toDeleteOf (diffSegmentsWithDatabase as bs) =
      (bs.filter fun b => decide (b.position ∉ as)).map segmentInfoForCommit.position := by
  induction as, bs using diffSegmentsWithDatabase.induct with
  | case1 bs => simp [diff_nil_left, toDeleteOf_map_onlyDB]
  | case2 a as =>
    simp [diff_nil_right, toDeleteOf_onlyClient, toDeleteOf_map_onlyClient]
  | case3 as b bs ih =>
    have h1 : ∀ c ∈ bs, ¬ c.position = b.position := fun c hc he =>
      posLt_ne (he ▸ sorted_head_lt hb (List.mem_map.mpr ⟨c, hc, rfl⟩)) rfl
    rw [diff_cons_eq, toDeleteOf_both, ih (posSorted_tail ha) (posSorted_tail hb),
      List.filter_cons]
    rw [if_neg (by simp)]
    exact congrArg _ (List.filter_congr fun c hc => by simp [h1 c hc])
  | case4 a as b bs hne hlt ih =>
    have h2 : ∀ c ∈ b :: bs, ¬ c.position = a := by
      intro c hc he
      rcases List.mem_cons.mp hc with rfl | hc'
      · exact hne (he ▸ rfl)
      · exact posLt_ne (posLt_trans hlt (sorted_head_lt hb
          (List.mem_map.mpr ⟨c, hc', rfl⟩))) (he ▸ rfl)
    rw [diff_cons_lt as bs hlt, toDeleteOf_onlyClient, ih (posSorted_tail ha) hb]
    exact congrArg _ (List.filter_congr fun c hc => by simp [h2 c hc])
  | case5 a as b bs hne hnlt ih =>
    have hba : posLt b.position a := posLt_total hne hnlt
    have h3 : b.position ∉ a :: as := by
      intro hmem
      rcases List.mem_cons.mp hmem with he | hmem'
      · exact hne he.symm
      · exact posLt_ne (posLt_trans hba (sorted_head_lt ha hmem')) rfl
    rw [diff_cons_gt as bs hne hnlt, toDeleteOf_onlyDB, ih ha (posSorted_tail hb),
      List.filter_cons]
    rw [if_pos (by simpa using h3), List.map_cons]

/-! ### The offset rewriter -/

theorem applyPlainOffsetUpdates_nil (rows : List SegmentRow) :
    applyPlainOffsetUpdates [] rows = rows := by
  unfold applyPlainOffsetUpdates
  simp

theorem applyPlainOffsetUpdates_cons_not_mem (u : SegmentPosition × Int)
    (ups : List (SegmentPosition × Int)) (rows : List SegmentRow)
    (h : ∀ r ∈ rows, ¬ u.1 = r.position) :
    applyPlainOffsetUpdates (u :: ups) rows = applyPlainOffsetUpdates ups rows := by
  unfold applyPlainOffsetUpdates
  refine List.map_eq_map_iff.mpr fun r hr => ?_
  rw [List.find?_cons_of_neg]
  simp [h r hr]

theorem computePlainOffsetUpdates_fst_sublist (e : Int) (us : List segmentToCommit) :
    ((computePlainOffsetUpdates e us).map Prod.fst).Sublist
      (us.map segmentToCommit.position) := by
  induction us generalizing e with
  | nil => simp [computePlainOffsetUpdates]
  | cons u rest ih =>
    by_cases h : u.oldPlainOffset = e
    · rw [computePlainOffsetUpdates, if_neg (by simpa using h), List.map_cons]
      exact (ih _).cons _
    · rw [computePlainOffsetUpdates, if_pos (by simpa using h), List.map_cons,
        List.map_cons]
      exact (ih _).cons₂ _

theorem mem_computePlainOffsetUpdates_fst {e : Int} {us : List segmentToCommit}
    {p : SegmentPosition} (h : p ∈ (computePlainOffsetUpdates e us).map Prod.fst) :
    p ∈ us.map segmentToCommit.position :=
  (computePlainOffsetUpdates_fst_sublist e us).subset h

theorem computePlainOffsetUpdates_eq (e : Int) (us : List segmentToCommit) :
    computePlainOffsetUpdates e us =
      (us.zip (plainOffsets e us)).filterMap fun p =>
        if p.1.oldPlainOffset = p.2 then none else some (p.1.position, p.2) := by
  induction us generalizing e with
  | nil => rfl
  | cons u rest ih =>
    by_cases h : u.oldPlainOffset = e <;>
      simp [computePlainOffsetUpdates, plainOffsets, h, ih]

theorem withOffsets_length (e : Int) (l : List SegmentRow) :
    (withOffsets e l).length = l.length := by
  induction l generalizing e with
  | nil => rfl
  | cons r rest ih => simp [withOffsets, ih]

theorem withOffsets_map_position (e : Int) (l : List SegmentRow) :
    (withOffsets e l).map SegmentRow.position = l.map SegmentRow.position := by
  induction l generalizing e with
  | nil => rfl
  | cons r rest ih => simp [withOffsets, ih]

theorem withOffsets_getElem? (e : Int) (l : List SegmentRow) (i : Nat) :
    (withOffsets e l)[i]? = (l[i]?).map fun r =>
      { r with plainOffset := e + ((l.take i).map fun x => x.plainSize).sum } := by
  induction l generalizing e i with
  | nil => simp [withOffsets]
  | cons r rest ih =>
    cases i with
    | zero => simp [withOffsets]
    | succ n =>
      rw [withOffsets]
      simp only [List.getElem?_cons_succ, List.take_succ_cons, List.map_cons,
        List.sum_cons, ih]
      congr 1
      funext x
      congr 1
      ring

theorem computePlainOffsetUpdates_withOffsets (e : Int) (l : List SegmentRow) :
    computePlainOffsetUpdates e ((withOffsets e l).map toCommit) = [] := by
  induction l generalizing e with
  | nil => rfl
  | cons r rest ih =>
    rw [withOffsets, List.map_cons, computePlainOffsetUpdates,
      if_neg (by simp [toCommit])]
    exact ih _

theorem map_position_map_toCommit (rows : List SegmentRow) :
    (rows.map toCommit).map segmentToCommit.position = rows.map SegmentRow.position := by
  simp [toCommit, List.map_map, Function.comp]

theorem applyPlainOffsetUpdates_toCommit (rows : List SegmentRow) (e : Int)
    (hs : rowsSorted rows) :
    applyPlainOffsetUpdates (computePlainOffsetUpdates e (rows.map toCommit)) rows =
      withOffsets e rows := by
  revert hs
  induction rows generalizing e with
  | nil =>
    intro hs
    simp [applyPlainOffsetUpdates, withOffsets]
  | cons r rest ih =>
    intro hs
    have hhead : ∀ x ∈ rest, ¬ r.position = x.position := fun x hx he =>
      posLt_ne (sorted_head_lt hs (List.mem_map.mpr ⟨x, hx, rfl⟩)) he
    have htail : rowsSorted rest := posSorted_tail hs
    have hups' : ∀ u ∈ computePlainOffsetUpdates (e + (toCommit r).plainSize)
        (rest.map toCommit), ¬ u.1 = r.position := by
      intro u hu he
      have h1 : u.1 ∈ (rest.map toCommit).map segmentToCommit.position :=
        mem_computePlainOffsetUpdates_fst (List.mem_map.mpr ⟨u, hu, rfl⟩)
      rw [map_position_map_toCommit] at h1
      obtain ⟨x, hx, hxe⟩ := List.mem_map.mp h1
      exact hhead x hx (hxe.trans he).symm
    by_cases h : r.plainOffset = e
    · rw [List.map_cons, computePlainOffsetUpdates,
        if_neg (by simpa [toCommit] using h)]
      have hfind : (computePlainOffsetUpdates (e + (toCommit r).plainSize)
          (rest.map toCommit)).find? (fun u => u.1 == r.position) = none :=
        List.find?_eq_none.mpr fun u hu => by simpa using hups' u hu
      unfold applyPlainOffsetUpdates
      rw [List.map_cons, hfind, withOffsets, ← h]
      congr 1
      show applyPlainOffsetUpdates _ rest = _
      exact ih _ htail
    · rw [List.map_cons, computePlainOffsetUpdates,
        if_pos (by simpa [toCommit] using h)]
      have hstep :
          applyPlainOffsetUpdates (((toCommit r).position, e) ::
              computePlainOffsetUpdates (e + (toCommit r).plainSize)
                (rest.map toCommit)) rest =
            applyPlainOffsetUpdates (computePlainOffsetUpdates
              (e + (toCommit r).plainSize) (rest.map toCommit)) rest :=
        applyPlainOffsetUpdates_cons_not_mem _ _ _
          (fun x hx he => hhead x hx he)
      unfold applyPlainOffsetUpdates
      rw [List.map_cons, List.find?_cons_of_pos _ (by simp [toCommit])]
      rw [withOffsets]
      congr 1
      show applyPlainOffsetUpdates _ rest = _
      rw [hstep]
      exact ih _ htail

theorem updateSegmentOffsets_ok (rows : List SegmentRow) (updates : List segmentToCommit)
    (hr : rowsSorted rows)
    (hnd : posSorted (updates.map segmentToCommit.position))
    (hpos : ∀ p ∈ updates.map segmentToCommit.position, p ∈ rows.map SegmentRow.position) :
    updateSegmentOffsets rows updates =
      Except.ok (applyPlainOffsetUpdates (computePlainOffsetUpdates 0 updates) rows) := by
  simp only [updateSegmentOffsets]
  by_cases hu : updates.isEmpty
  · rw [if_pos hu]
    have he : updates = [] := List.isEmpty_iff.mp hu
    subst he
    rw [show computePlainOffsetUpdates 0 ([] : List segmentToCommit) = [] from rfl,
      applyPlainOffsetUpdates_nil]
  · rw [if_neg hu]
    by_cases hups : (computePlainOffsetUpdates 0 updates).isEmpty
    · rw [if_pos hups]
      rw [List.isEmpty_iff.mp hups, applyPlainOffsetUpdates_nil]
    · rw [if_neg hups]
      have hnodupR : (rows.map SegmentRow.position).Nodup :=
        hr.imp fun h => posLt_ne h
      have hndups : ((computePlainOffsetUpdates 0 updates).map Prod.fst).Nodup :=
        (hnd.imp fun h => posLt_ne h).sublist
          (computePlainOffsetUpdates_fst_sublist 0 updates)
      have h1 : ((rows.filter fun r =>
          (computePlainOffsetUpdates 0 updates).any fun u => u.1 == r.position).map
            SegmentRow.position).Nodup :=
        hnodupR.sublist ((List.filter_sublist rows).map SegmentRow.position)
      have hsub1 : ((rows.filter fun r =>
          (computePlainOffsetUpdates 0 updates).any fun u => u.1 == r.position).map
            SegmentRow.position) ⊆ (computePlainOffsetUpdates 0 updates).map Prod.fst := by
        intro x hx
        obtain ⟨r, hrmem, rfl⟩ := List.mem_map.mp hx
        obtain ⟨hrrows, hany⟩ := List.mem_filter.mp hrmem
        obtain ⟨u, hu, hue⟩ := List.any_eq_true.mp hany
        exact List.mem_map.mpr ⟨u, hu, by simpa using hue⟩
      have hsub2 : (computePlainOffsetUpdates 0 updates).map Prod.fst ⊆
          ((rows.filter fun r =>
            (computePlainOffsetUpdates 0 updates).any fun u => u.1 == r.position).map
              SegmentRow.position) := by
        intro x hx
        have hx' := hx
        obtain ⟨u, hu, rfl⟩ := List.mem_map.mp hx
        have hmem : u.1 ∈ rows.map SegmentRow.position :=
          hpos _ (mem_computePlainOffsetUpdates_fst hx')
        obtain ⟨r, hrrows, hre⟩ := List.mem_map.mp hmem
        refine List.mem_map.mpr ⟨r, List.mem_filter.mpr ⟨hrrows, ?_⟩, hre⟩
        exact List.any_eq_true.mpr ⟨u, hu, by simp [hre]⟩
      have hle1 := (List.subperm_of_subset h1 hsub1).length_le
      have hle2 := (List.subperm_of_subset hndups hsub2).length_le
      rw [List.length_map, List.length_map] at hle1 hle2
      rw [if_pos (Nat.le_antisymm hle1 hle2)]

/-! ### The offset update only touches the plain offset column -/

theorem applyPlainOffsetUpdates_filter_position
    (ups : List (SegmentPosition × Int)) (rows : List SegmentRow)
    (q : SegmentPosition → Bool) :
    (applyPlainOffsetUpdates ups rows).filter (fun r => q r.position) =
      applyPlainOffsetUpdates ups (rows.filter fun r => q r.position) := by
  unfold applyPlainOffsetUpdates
  rw [List.filter_map]
  congr 1
  refine List.filter_congr fun r _ => ?_
  rcases hf : ups.find? (fun u => u.1 == r.position) with _ | u <;>
    simp [Function.comp, hf]

theorem applyPlainOffsetUpdates_filter_root
    (ups : List (SegmentPosition × Int)) (rows : List SegmentRow) :
    (applyPlainOffsetUpdates ups rows).filter (fun r => r.rootPieceID != 0) =
      applyPlainOffsetUpdates ups (rows.filter fun r => r.rootPieceID != 0) := by
  unfold applyPlainOffsetUpdates
  rw [List.filter_map]
  congr 1
  refine List.filter_congr fun r _ => ?_
  rcases hf : ups.find? (fun u => u.1 == r.position) with _ | u <;>
    simp [Function.comp, hf]

theorem applyPlainOffsetUpdates_map_deletedInfo
    (ups : List (SegmentPosition × Int)) (rows : List SegmentRow) :
    (applyPlainOffsetUpdates ups rows).map deletedInfo = rows.map deletedInfo := by
  unfold applyPlainOffsetUpdates
  rw [List.map_map]
  refine List.map_eq_map_iff.mpr fun r _ => ?_
  rcases hf : ups.find? (fun u => u.1 == r.position) with _ | u <;>
    simp [Function.comp, hf, deletedInfo]

theorem applyPlainOffsetUpdates_map_position
    (ups : List (SegmentPosition × Int)) (rows : List SegmentRow) :
    (applyPlainOffsetUpdates ups rows).map SegmentRow.position =
      rows.map SegmentRow.position := by
  unfold applyPlainOffsetUpdates
  rw [List.map_map]
  refine List.map_eq_map_iff.mpr fun r _ => ?_
  rcases hf : ups.find? (fun u => u.1 == r.position) with _ | u <;>
    simp [Function.comp, hf]

/-! ### The orphan deleter -/

theorem deleteSegmentsNotInCommit_eq (rows : List SegmentRow)
    (segments : List SegmentPosition) :
    deleteSegmentsNotInCommit rows segments =
      ((rows.filter fun r => !(segments.contains r.position)),
       ((rows.filter fun r => segments.contains r.position).filter
          fun r => r.rootPieceID != 0).map deletedInfo) := by
  unfold deleteSegmentsNotInCommit
  by_cases h : segments.isEmpty
  · rw [if_pos h]
    have he : segments = [] := List.isEmpty_iff.mp h
    subst he
    simp
  · rw [if_neg h]

/-! ### The snapshot projection -/

theorem infos_map_position (rows : List SegmentRow) :
    (rows.map segmentInfo).map segmentInfoForCommit.position =
      rows.map SegmentRow.position := by
  simp [segmentInfo, List.map_map, Function.comp]

theorem infosSorted_of_rowsSorted {rows : List SegmentRow} (hr : rowsSorted rows) :
    infosSorted (rows.map segmentInfo) := by
  unfold infosSorted
  rw [infos_map_position]
  exact hr

/-- When every client position has a database row, `determineCommitActions`
succeeds: the commit list is the kept rows carried over with their store
data, the delete list the positions of the dropped rows. -/
theorem determineCommitActions_ok (as : List SegmentPosition) (rows : List SegmentRow)
    (ha : posSorted as) (hr : rowsSorted rows)
    (hsub : ∀ a ∈ as, a ∈ rows.map SegmentRow.position) :
    determineCommitActions as (rows.map segmentInfo) =
      Except.ok ((keptRows as rows).map toCommit,
        (rows.filter fun r => decide (r.position ∉ as)).map SegmentRow.position) := by
  have hbs : infosSorted (rows.map segmentInfo) := infosSorted_of_rowsSorted hr
  have hinv : invalidOf (diffSegmentsWithDatabase as (rows.map segmentInfo)) = [] := by
    rw [invalidOf_diff as _ ha hbs]
    refine List.filter_eq_nil_iff.mpr fun a hax => ?_
    simp only [infos_map_position]
    simp [hsub a hax]
  have hcommit : commitOf (diffSegmentsWithDatabase as (rows.map segmentInfo)) =
      (keptRows as rows).map toCommit := by
    rw [commitOf_diff as _ ha hbs, List.filter_map, List.map_map]
    rfl
  have hdel : toDeleteOf (diffSegmentsWithDatabase as (rows.map segmentInfo)) =
      (rows.filter fun r => decide (r.position ∉ as)).map SegmentRow.position := by
    rw [toDeleteOf_diff as _ ha hbs, List.filter_map, List.map_map]
    rfl
  simp only [determineCommitActions]
  rw [hinv, hcommit, hdel]
  simp

theorem keptRows_map_position (as : List SegmentPosition) (rows : List SegmentRow) :
    (keptRows as rows).map SegmentRow.position =
      (rows.map SegmentRow.position).filter fun p => decide (p ∈ as) := by
  unfold keptRows
  rw [List.filter_map]
  rfl

theorem keptRows_sorted {as : List SegmentPosition} {rows : List SegmentRow}
    (hr : rowsSorted rows) : rowsSorted (keptRows as rows) := by
  unfold rowsSorted
  rw [keptRows_map_position]
  exact List.Pairwise.sublist (List.filter_sublist _) hr

/-- The full characterization of a successful transaction: with a sorted
client list all of whose positions exist in the (sorted) store, and a
pending object row, `commitTx` keeps exactly the client-referenced rows,
rewrites their offsets to the running sums, deletes the rest, reports the
remote deleted segments, and writes the committed object row. -/
theorem commitTx_ok (store : Store) (as : List SegmentPosition) (obj : ObjectRow)
    (ha : posSorted as) (hr : rowsSorted store.segments)
    (hobj : store.object = some obj) (hpend : obj.status = ObjectStatus.pending)
    (hsub : ∀ a ∈ as, a ∈ store.segments.map SegmentRow.position) :
    commitTx store as =
      Except.ok
        ({ object := some (committedObject (keptRows as store.segments)),
           segments := withOffsets 0 (keptRows as store.segments) },
         committedObject (keptRows as store.segments),
         deletedInfos as store.segments) := by
  have hdet := determineCommitActions_ok as store.segments ha hr hsub
  have hnd : posSorted (((keptRows as store.segments).map toCommit).map
      segmentToCommit.position) := by
    rw [map_position_map_toCommit]
    exact keptRows_sorted hr
  have hposs : ∀ p ∈ ((keptRows as store.segments).map toCommit).map
      segmentToCommit.position, p ∈ store.segments.map SegmentRow.position := by
    intro p hp
    rw [map_position_map_toCommit, keptRows_map_position] at hp
    exact (List.filter_sublist _).subset hp
  have hupd := updateSegmentOffsets_ok store.segments
    ((keptRows as store.segments).map toCommit) hr hnd hposs
  -- the positions to delete
  set dels := (store.segments.filter fun r => decide (r.position ∉ as)).map
    SegmentRow.position with hdels
  set ups := computePlainOffsetUpdates 0 ((keptRows as store.segments).map toCommit)
    with hups
  -- membership in `dels` is the complement of membership in `as`
  have hdels_iff : ∀ p ∈ store.segments.map SegmentRow.position,
      (p ∈ dels ↔ p ∉ as) := by
    intro p hpmem
    constructor
    · intro hc
      obtain ⟨x, hx, hxe⟩ := List.mem_map.mp hc
      have hx2 := (List.mem_filter.mp hx).2
      rw [hxe] at hx2
      simpa using hx2
    · intro hnot
      obtain ⟨r, hrmem, hre⟩ := List.mem_map.mp hpmem
      refine List.mem_map.mpr ⟨r, List.mem_filter.mpr ⟨hrmem, ?_⟩, hre⟩
      simp [hre, hnot]
  -- the two filters of the deletion step
  have hfilter_keep : (applyPlainOffsetUpdates ups store.segments).filter
      (fun r => !(dels.contains r.position)) = withOffsets 0 (keptRows as store.segments) := by
    rw [applyPlainOffsetUpdates_filter_position ups store.segments
      (fun p => !(dels.contains p))]
    have : store.segments.filter (fun r => !(dels.contains r.position)) =
        keptRows as store.segments := by
      unfold keptRows
      refine List.filter_congr fun r hrmem => ?_
      have hiff := hdels_iff r.position (List.mem_map.mpr ⟨r, hrmem, rfl⟩)
      by_cases hmem : r.position ∈ as
      · have : r.position ∉ dels := fun hc => (hiff.mp hc) hmem
        simp [this, hmem]
      · have : r.position ∈ dels := hiff.mpr hmem
        simp [this, hmem]
    rw [this]
    exact applyPlainOffsetUpdates_toCommit _ 0 (keptRows_sorted hr)
  have hfilter_drop : (applyPlainOffsetUpdates ups store.segments).filter
      (fun r => dels.contains r.position) =
        applyPlainOffsetUpdates ups (store.segments.filter fun r =>
          decide (r.position ∉ as)) := by
    rw [applyPlainOffsetUpdates_filter_position ups store.segments
      (fun p => dels.contains p)]
    congr 1
    refine List.filter_congr fun r hrmem => ?_
    have hiff := hdels_iff r.position (List.mem_map.mpr ⟨r, hrmem, rfl⟩)
    by_cases hmem : r.position ∈ as
    · have : r.position ∉ dels := fun hc => (hiff.mp hc) hmem
      simp [this, hmem]
    · have : r.position ∈ dels := hiff.mpr hmem
      simp [this, hmem]
  have hinfos : (((applyPlainOffsetUpdates ups store.segments).filter
      (fun r => dels.contains r.position)).filter fun r => r.rootPieceID != 0).map
        deletedInfo = deletedInfos as store.segments := by
    rw [hfilter_drop, applyPlainOffsetUpdates_filter_root,
      applyPlainOffsetUpdates_map_deletedInfo]
    rfl
  unfold commitTx
  rw [show fetchSegmentsForCommit store = store.segments.map segmentInfo from rfl,
    hdet]
  simp only []
  rw [hupd]
  simp only []
  rw [deleteSegmentsNotInCommit_eq]
  simp only []
  rw [hobj]
  simp only [hpend, if_pos]
  rw [hfilter_keep, hinfos]
  simp [committedObject]

/-! ### Input validation -/

theorem verifySegmentOrderLoop_ok_iff (lastp : SegmentPosition)
    (l : List SegmentPosition) :
    verifySegmentOrderLoop lastp l = Except.ok () ↔ List.Chain posLt lastp l := by
  induction l generalizing lastp with
  | nil => simp [verifySegmentOrderLoop]
  | cons x rest ih =>
    rw [verifySegmentOrderLoop]
    by_cases h : lastp.less x
    · rw [if_pos h, ih]
      simp [List.chain_cons, posLt, h]
    · rw [if_neg h]
      simp [List.chain_cons, posLt, h]

theorem verifySegmentOrder_ok_iff (l : List SegmentPosition) :
    verifySegmentOrder l = Except.ok () ↔ l.Chain' posLt := by
  cases l with
  | nil => simp [verifySegmentOrder, List.Chain']
  | cons p rest =>
    rw [verifySegmentOrder]
    exact verifySegmentOrderLoop_ok_iff p rest

theorem verifySegmentOrder_of_sorted {l : List SegmentPosition}
    (h : posSorted l) : verifySegmentOrder l = Except.ok () :=
  (verifySegmentOrder_ok_iff l).mpr h.chain'

/-! ### Failure paths of the transaction -/

theorem determineCommitActions_error (as : List SegmentPosition)
    (rows : List SegmentRow) (ha : posSorted as) (hr : rowsSorted rows)
    (hmiss : ∃ a ∈ as, a ∉ rows.map SegmentRow.position) :
    determineCommitActions as (rows.map segmentInfo) =
      Except.error (CommitError.consistency
        (as.filter fun a => decide (a ∉ rows.map SegmentRow.position))) := by
  have hbs : infosSorted (rows.map segmentInfo) := infosSorted_of_rowsSorted hr
  have hinv : invalidOf (diffSegmentsWithDatabase as (rows.map segmentInfo)) =
      as.filter fun a => decide (a ∉ rows.map SegmentRow.position) := by
    rw [invalidOf_diff as _ ha hbs]
    simp only [infos_map_position]
  simp only [determineCommitActions]
  rw [hinv]
  have hne : ¬ ((as.filter fun a =>
      decide (a ∉ rows.map SegmentRow.position)).isEmpty = true) := by
    obtain ⟨a, hamem, hnot⟩ := hmiss
    rw [List.isEmpty_iff]
    intro hnil
    have := List.filter_eq_nil_iff.mp hnil a hamem
    simp [hnot] at this
  rw [if_neg hne]

theorem commitTx_notFound (store : Store) (as : List SegmentPosition)
    (ha : posSorted as) (hr : rowsSorted store.segments)
    (hsub : ∀ a ∈ as, a ∈ store.segments.map SegmentRow.position)
    (hnp : ∀ obj, store.object = some obj → ¬ obj.status = ObjectStatus.pending) :
    commitTx store as = Except.error CommitError.notFound := by
  have hdet := determineCommitActions_ok as store.segments ha hr hsub
  have hnd : posSorted (((keptRows as store.segments).map toCommit).map
      segmentToCommit.position) := by
    rw [map_position_map_toCommit]
    exact keptRows_sorted hr
  have hposs : ∀ p ∈ ((keptRows as store.segments).map toCommit).map
      segmentToCommit.position, p ∈ store.segments.map SegmentRow.position := by
    intro p hp
    rw [map_position_map_toCommit, keptRows_map_position] at hp
    exact (List.filter_sublist _).subset hp
  have hupd := updateSegmentOffsets_ok store.segments
    ((keptRows as store.segments).map toCommit) hr hnd hposs
  unfold commitTx
  rw [show fetchSegmentsForCommit store = store.segments.map segmentInfo from rfl,
    hdet]
  simp only []
  rw [hupd]
  simp only []
  rw [deleteSegmentsNotInCommit_eq]
  simp only []
  cases hob : store.object with
  | none => rfl
  | some obj =>
    simp only []
    rw [if_neg (hnp obj hob)]

theorem commitTx_consistency (store : Store) (as : List SegmentPosition)
    (ha : posSorted as) (hr : rowsSorted store.segments)
    (hmiss : ∃ a ∈ as, a ∉ store.segments.map SegmentRow.position) :
    commitTx store as = Except.error (CommitError.consistency
      (as.filter fun a => decide (a ∉ store.segments.map SegmentRow.position))) := by
  unfold commitTx
  rw [show fetchSegmentsForCommit store = store.segments.map segmentInfo from rfl,
    determineCommitActions_error as store.segments ha hr hmiss]

/-! ### The wrapper (validation, transaction, rollback) -/

theorem commitObjectWithSegments_ok (store : Store) (as : List SegmentPosition)
    (obj : ObjectRow)
    (ha : posSorted as) (hr : rowsSorted store.segments)
    (hobj : store.object = some obj) (hpend : obj.status = ObjectStatus.pending)
    (hsub : ∀ a ∈ as, a ∈ store.segments.map SegmentRow.position) :
    commitObjectWithSegments store as =
      ({ object := some (committedObject (keptRows as store.segments)),
         segments := withOffsets 0 (keptRows as store.segments) },
       Except.ok (committedObject (keptRows as store.segments),
         deletedInfos as store.segments)) := by
  unfold commitObjectWithSegments
  rw [verifySegmentOrder_of_sorted ha,
    commitTx_ok store as obj ha hr hobj hpend hsub]

theorem commitObjectWithSegments_notFound (store : Store) (as : List SegmentPosition)
    (ha : posSorted as) (hr : rowsSorted store.segments)
    (hsub : ∀ a ∈ as, a ∈ store.segments.map SegmentRow.position)
    (hnp : ∀ obj, store.object = some obj → ¬ obj.status = ObjectStatus.pending) :
    commitObjectWithSegments store as = (store, Except.error CommitError.notFound) := by
  unfold commitObjectWithSegments
  rw [verifySegmentOrder_of_sorted ha, commitTx_notFound store as ha hr hsub hnp]

theorem commitObjectWithSegments_consistency (store : Store)
    (as : List SegmentPosition)
    (ha : posSorted as) (hr : rowsSorted store.segments)
    (hmiss : ∃ a ∈ as, a ∉ store.segments.map SegmentRow.position) :
    commitObjectWithSegments store as =
      (store, Except.error (CommitError.consistency
        (as.filter fun a => decide (a ∉ store.segments.map SegmentRow.position)))) := by
  unfold commitObjectWithSegments
  rw [verifySegmentOrder_of_sorted ha, commitTx_consistency store as ha hr hmiss]

/-! ### Kept positions are exactly the client positions -/

theorem keptRows_positions_eq {as : List SegmentPosition} {rows : List SegmentRow}
    (ha : posSorted as) (hr : rowsSorted rows)
    (hsub : ∀ a ∈ as, a ∈ rows.map SegmentRow.position) :
    (keptRows as rows).map SegmentRow.position = as := by
  rw [keptRows_map_position]
  have hnd1 : ((rows.map SegmentRow.position).filter fun p => decide (p ∈ as)).Nodup :=
    (hr.imp fun h => posLt_ne h).sublist (List.filter_sublist _)
  have hnd2 : as.Nodup := ha.imp fun h => posLt_ne h
  have hmem : ∀ p, p ∈ (rows.map SegmentRow.position).filter
      (fun p => decide (p ∈ as)) ↔ p ∈ as := by
    intro p
    constructor
    · intro hp
      have := (List.mem_filter.mp hp).2
      simpa using this
    · intro hp
      exact List.mem_filter.mpr ⟨hsub p hp, by simpa using hp⟩
  have hperm : ((rows.map SegmentRow.position).filter fun p => decide (p ∈ as)).Perm as :=
    List.Subperm.antisymm
      (List.subperm_of_subset hnd1 fun p hp => (hmem p).mp hp)
      (List.subperm_of_subset hnd2 fun p hp => (hmem p).mpr hp)
  exact List.eq_of_perm_of_sorted hperm
    (List.Pairwise.sublist (List.filter_sublist _) hr) ha

/-! ### The fixed segment size loop -/

theorem fixedLoop_spec (fixed : Int) (n : Nat) :
    ∀ (i : Nat) (segs : List segmentToCommit), i + segs.length = n →
    fixedLoop fixed n i segs =
      if (segs.any fun s => s.position.part != 0) ||
         (segs.dropLast.any fun s => s.encryptedSize != fixed) then -1 else fixed := by
  intro i segs
  induction segs generalizing i with
  | nil =>
    intro _
    simp [fixedLoop]
  | cons seg rest ih =>
    intro hn
    rw [List.length_cons] at hn
    rw [fixedLoop]
    by_cases hp : seg.position.part ≠ 0
    · rw [if_pos hp]
      have hany : ((seg :: rest).any fun s => s.position.part != 0) = true := by
        simp only [List.any_cons, Bool.or_eq_true]
        exact Or.inl (by simpa using hp)
      rw [hany, Bool.true_or, if_pos rfl]
    · rw [if_neg hp]
      push_neg at hp
      cases rest with
      | nil =>
        rw [List.length_nil] at hn
        rw [if_neg fun hc => absurd hc.1 (by omega), fixedLoop]
        simp [hp]
      | cons s2 rest2 =>
        have hlt : i < n - 1 := by
          rw [List.length_cons] at hn
          omega
        by_cases hs : seg.encryptedSize ≠ fixed
        · rw [if_pos ⟨hlt, hs⟩]
          have hany : (((seg :: s2 :: rest2).dropLast).any
              fun s => s.encryptedSize != fixed) = true := by
            rw [show (seg :: s2 :: rest2).dropLast = seg :: (s2 :: rest2).dropLast
              from rfl]
            simp only [List.any_cons, Bool.or_eq_true]
            exact Or.inl (by simpa using hs)
          rw [hany, Bool.or_true, if_pos rfl]
        · rw [if_neg fun hc => hs hc.2, ih (i + 1) (by omega)]
          push_neg at hs
          rw [show (seg :: s2 :: rest2).dropLast = seg :: (s2 :: rest2).dropLast
            from rfl]
          simp [hp, hs]

/-- The inline `fixedSegmentSize` computation agrees with the spec's
description (sentinel `-1` iff multi-part or a non-last segment's encrypted
size differs from the first's; `0` for an empty set). -/
theorem fixedSegmentSize_eq_spec (segs : List segmentToCommit) :
    fixedSegmentSize segs = fixedSegmentSizeSpec segs := by
  cases segs with
  | nil => rfl
  | cons seg rest =>
    rw [fixedSegmentSize, fixedLoop_spec seg.encryptedSize (seg :: rest).length 0
      (seg :: rest) (by simp), fixedSegmentSizeSpec]

/-! ### Offsets in the committed store -/

theorem withOffsets_map_plainSize (e : Int) (l : List SegmentRow) :
    (withOffsets e l).map (fun r => r.plainSize) = l.map fun r => r.plainSize := by
  induction l generalizing e with
  | nil => rfl
  | cons r rest ih => simp [withOffsets, ih]

theorem withOffsets_offset_eq_sum_take (l : List SegmentRow) (i : Nat)
    (r : SegmentRow) (h : (withOffsets 0 l)[i]? = some r) :
    r.plainOffset = (((withOffsets 0 l).take i).map fun x => x.plainSize).sum := by
  rw [withOffsets_getElem?] at h
  cases hl : l[i]? with
  | none =>
    rw [hl] at h
    exact absurd h (by simp)
  | some x =>
    rw [hl, Option.map_some'] at h
    have hx := Option.some.inj h
    have htake : ((withOffsets 0 l).take i).map (fun y => y.plainSize) =
        (l.take i).map fun y => y.plainSize := by
      rw [List.map_take, List.map_take, withOffsets_map_plainSize]
    rw [htake, ← hx]
    simp

theorem rowsSorted_withOffsets {e : Int} {l : List SegmentRow}
    (h : rowsSorted l) : rowsSorted (withOffsets e l) := by
  unfold rowsSorted
  rw [withOffsets_map_position]
  exact h

theorem computePlainOffsetUpdates_of_invariant (rows : List SegmentRow)
    (hinv : rows = withOffsets 0 rows) :
    computePlainOffsetUpdates 0 (rows.map toCommit) = [] := by
  conv_lhs => rw [hinv]
  exact computePlainOffsetUpdates_withOffsets 0 rows

/-! ### The claims -/

/-- C3: the `fixed_segment_size` aggregate is `0` for an empty commit set,
the sentinel `-1` when any segment has a non-zero part number or a non-last
segment's encrypted size differs from the first's, and otherwise the common
(first) encrypted size; in particular encrypted sizes 10, 10, 7 in part 0
give 10, and sizes 10, 5 across parts 0 and 1 give the sentinel. -/
theorem claim3 :
    (∀ segs : List segmentToCommit, fixedSegmentSize segs = fixedSegmentSizeSpec segs) ∧
    fixedSegmentSize [⟨⟨0, 0⟩, 0, 3, 10⟩, ⟨⟨0, 1⟩, 0, 3, 10⟩, ⟨⟨0, 2⟩, 0, 3, 7⟩] = 10 ∧
    fixedSegmentSize [⟨⟨0, 0⟩, 0, 3, 10⟩, ⟨⟨1, 0⟩, 0, 3, 5⟩] = -1 ∧
    fixedSegmentSize [] = 0 :=
  ⟨fixedSegmentSize_eq_spec, by decide, by decide, rfl⟩

/-- C4: when the object row is not pending for the commit's identity (so
the conditional update of step 7 matches zero rows), the call fails with
the distinct `notFound` error and the transaction rolls back: the returned
store — segment rows included — is the original one. -/
theorem claim4 (store : Store) (as : List SegmentPosition)
    (ha : posSorted as) (hr : rowsSorted store.segments)
    (hsub : ∀ a ∈ as, a ∈ store.segments.map SegmentRow.position)
    (hnp : ∀ obj, store.object = some obj → ¬ obj.status = ObjectStatus.pending) :
    commitObjectWithSegments store as = (store, Except.error CommitError.notFound) :=
  commitObjectWithSegments_notFound store as ha hr hsub hnp

/-- Witness for C4 at a store whose object row is already committed. -/
theorem claim4_witness :
    commitObjectWithSegments wStoreCommitted wA =
      (wStoreCommitted, Except.error CommitError.notFound) :=
  claim4 wStoreCommitted wA (by decide) (by decide) (by decide) (by decide)

/-- C5: if the client list contains a position absent from the store
snapshot, `determineCommitActions` fails with the aggregated consistency
error listing every missing position (no commit or delete output), and the
commit call returns the store unchanged. -/
theorem claim5 (store : Store) (as : List SegmentPosition)
    (ha : posSorted as) (hr : rowsSorted store.segments)
    (hmiss : ∃ a ∈ as, a ∉ store.segments.map SegmentRow.position) :
    determineCommitActions as (fetchSegmentsForCommit store) =
      Except.error (CommitError.consistency
        (as.filter fun a => decide (a ∉ store.segments.map SegmentRow.position))) ∧
    commitObjectWithSegments store as =
      (store, Except.error (CommitError.consistency
        (as.filter fun a => decide (a ∉ store.segments.map SegmentRow.position)))) :=
  ⟨determineCommitActions_error as store.segments ha hr hmiss,
   commitObjectWithSegments_consistency store as ha hr hmiss⟩

/-- Witness for C5: the client claims position 3, which the store lacks. -/
theorem claim5_witness :
    (∃ a ∈ wAMissing, a ∉ wStore.segments.map SegmentRow.position) ∧
    (determineCommitActions wAMissing (fetchSegmentsForCommit wStore) =
      Except.error (CommitError.consistency
        (wAMissing.filter fun a =>
          decide (a ∉ wStore.segments.map SegmentRow.position))) ∧
    commitObjectWithSegments wStore wAMissing =
      (wStore, Except.error (CommitError.consistency
        (wAMissing.filter fun a =>
          decide (a ∉ wStore.segments.map SegmentRow.position))))) :=
  ⟨by decide, claim5 wStore wAMissing (by decide) (by decide) (by decide)⟩

/-- C7: `verifySegmentOrder` accepts a list exactly when every adjacent
pair is strictly increasing (so it fails precisely on an equal-or-decreasing
adjacent pair); the empty and singleton lists are accepted; and a rejected
call returns before the transaction with the store unchanged. -/
theorem claim7 :
    (∀ l : List SegmentPosition,
      verifySegmentOrder l = Except.ok () ↔ l.Chain' posLt) ∧
    verifySegmentOrder [] = Except.ok () ∧
    (∀ p : SegmentPosition, verifySegmentOrder [p] = Except.ok ()) ∧
    (∀ (store : Store) (l : List SegmentPosition) (e : CommitError),
      verifySegmentOrder l = Except.error e →
      commitObjectWithSegments store l = (store, Except.error e)) := by
  refine ⟨verifySegmentOrder_ok_iff, rfl, fun p => rfl, ?_⟩
  intro store l e h
  unfold commitObjectWithSegments
  rw [h]

/-- Witness for C7 at a decreasing pair: validation fails naming the pair
and the store is untouched. -/
theorem claim7_witness :
    verifySegmentOrder wABad =
      Except.error (CommitError.validation ⟨0, 1⟩ ⟨0, 0⟩) ∧
    commitObjectWithSegments wStore wABad =
      (wStore, Except.error (CommitError.validation ⟨0, 1⟩ ⟨0, 0⟩)) :=
  ⟨by decide,
   claim7.2.2.2 wStore wABad (CommitError.validation ⟨0, 1⟩ ⟨0, 0⟩) (by decide)⟩

/-- C1: on sorted inputs the reconciliation classifies every position into
exactly one of the three outcomes — matched positions (present in both
lists) form the commit list carrying the store row's plain size, encrypted
size and old plain offset; client positions missing from the store form the
aggregated fatal error; store positions the client dropped form the delete
list — and the commit and delete lists are ascending like the inputs. -/
theorem claim1 (as : List SegmentPosition) (bs : List segmentInfoForCommit)
    (ha : posSorted as) (hb : infosSorted bs) :
    determineCommitActions as bs =
      (if (as.filter fun a =>
            decide (a ∉ bs.map segmentInfoForCommit.position)).isEmpty then
        Except.ok
          ((bs.filter fun b => decide (b.position ∈ as)).map fun b =>
            (⟨b.position, b.plainOffset, b.plainSize, b.encryptedSize⟩ : segmentToCommit),
           (bs.filter fun b => decide (b.position ∉ as)).map
             segmentInfoForCommit.position)
      else
        Except.error (CommitError.consistency (as.filter fun a =>
          decide (a ∉ bs.map segmentInfoForCommit.position)))) ∧
    posSorted (((bs.filter fun b => decide (b.position ∈ as)).map fun b =>
      (⟨b.position, b.plainOffset, b.plainSize, b.encryptedSize⟩ : segmentToCommit)).map
        segmentToCommit.position) ∧
    posSorted ((bs.filter fun b => decide (b.position ∉ as)).map
      segmentInfoForCommit.position) := by
  refine ⟨?_, ?_, ?_⟩
  · simp only [determineCommitActions]
    rw [invalidOf_diff as bs ha hb, commitOf_diff as bs ha hb,
      toDeleteOf_diff as bs ha hb]
  · have hmm : (((bs.filter fun b => decide (b.position ∈ as)).map fun b =>
        (⟨b.position, b.plainOffset, b.plainSize, b.encryptedSize⟩ : segmentToCommit)).map
          segmentToCommit.position) =
        (bs.filter fun b => decide (b.position ∈ as)).map
          segmentInfoForCommit.position := by
      simp [List.map_map, Function.comp]
    rw [hmm]
    exact List.Pairwise.sublist
      (List.Sublist.map _ (List.filter_sublist _)) hb
  · exact List.Pairwise.sublist
      (List.Sublist.map _ (List.filter_sublist _)) hb

/-- Witness for C1 at the three-row snapshot and the client list {0, 2}. -/
theorem claim1_witness :
    posSorted wA ∧ infosSorted (wRows.map segmentInfo) ∧
    (determineCommitActions wA (wRows.map segmentInfo) =
      (if (wA.filter fun a =>
            decide (a ∉ (wRows.map segmentInfo).map segmentInfoForCommit.position)).isEmpty then
        Except.ok
          (((wRows.map segmentInfo).filter fun b => decide (b.position ∈ wA)).map fun b =>
            (⟨b.position, b.plainOffset, b.plainSize, b.encryptedSize⟩ : segmentToCommit),
           ((wRows.map segmentInfo).filter fun b => decide (b.position ∉ wA)).map
             segmentInfoForCommit.position)
      else
        Except.error (CommitError.consistency (wA.filter fun a =>
          decide (a ∉ (wRows.map segmentInfo).map segmentInfoForCommit.position)))) ∧
    posSorted ((((wRows.map segmentInfo).filter fun b => decide (b.position ∈ wA)).map fun b =>
      (⟨b.position, b.plainOffset, b.plainSize, b.encryptedSize⟩ : segmentToCommit)).map
        segmentToCommit.position) ∧
    posSorted (((wRows.map segmentInfo).filter fun b => decide (b.position ∉ wA)).map
      segmentInfoForCommit.position)) :=
  ⟨by decide, by decide, claim1 wA (wRows.map segmentInfo) (by decide) (by decide)⟩

/-- C2: the batch update contains exactly the segments whose stored offset
differs from the running expected offset (first expected offset 0, then the
sum of the preceding plain sizes), each paired with that expected offset;
`updateSegmentOffsets` applies exactly that batch; and after a successful
commit the stored rows are sorted and every row's plain offset is the sum of
the plain sizes of the kept rows before it. -/
theorem claim2 :
    (∀ updates : List segmentToCommit,
      computePlainOffsetUpdates 0 updates =
        (updates.zip (plainOffsets 0 updates)).filterMap fun p =>
          if p.1.oldPlainOffset = p.2 then none else some (p.1.position, p.2)) ∧
    (∀ (store : Store) (as : List SegmentPosition) (obj : ObjectRow),
      posSorted as → rowsSorted store.segments → store.object = some obj →
      obj.status = ObjectStatus.pending →
      (∀ a ∈ as, a ∈ store.segments.map SegmentRow.position) →
      rowsSorted (commitObjectWithSegments store as).1.segments ∧
      ∀ (i : Nat) (r : SegmentRow),
        (commitObjectWithSegments store as).1.segments[i]? = some r →
        r.plainOffset =
          (((commitObjectWithSegments store as).1.segments.take i).map
            fun x => x.plainSize).sum) := by
  refine ⟨computePlainOffsetUpdates_eq 0, ?_⟩
  intro store as obj ha hr hobj hpend hsub
  rw [commitObjectWithSegments_ok store as obj ha hr hobj hpend hsub]
  exact ⟨rowsSorted_withOffsets (keptRows_sorted hr),
    fun i r h => withOffsets_offset_eq_sum_take _ i r h⟩

/-- Witness for C2: after the example commit, the second kept row's offset
4 is the plain size of the kept row before it. -/
theorem claim2_witness :
    (⟨⟨0, 2⟩, 7, 4, 2, 9, [8]⟩ : SegmentRow).plainOffset =
      (((commitObjectWithSegments wStore wA).1.segments.take 1).map
        fun x => x.plainSize).sum :=
  (claim2.2 wStore wA ⟨ObjectStatus.pending, 0, 0, 0, 0⟩ (by decide) (by decide)
      rfl rfl (by decide)).2 1 ⟨⟨0, 2⟩, 7, 4, 2, 9, [8]⟩ (by
      simp [commitObjectWithSegments, commitTx, verifySegmentOrder,
        verifySegmentOrderLoop, fetchSegmentsForCommit, determineCommitActions,
        diffSegmentsWithDatabase, invalidOf, commitOf, toDeleteOf,
        updateSegmentOffsets, computePlainOffsetUpdates, applyPlainOffsetUpdates,
        deleteSegmentsNotInCommit, deletedInfo, fixedSegmentSize, fixedLoop,
        segmentInfo, wStore, wRows, wA, SegmentPosition.less])

/-- C6: a successful commit keeps exactly the client-referenced rows and
returns `DeletedSegmentInfo` for exactly the dropped remote rows; in the
concrete {0,1,2} vs {0,2} scenario the delete set is exactly position 1,
whose info is returned when it is remote and omitted (though still removed)
when it is inline. -/
theorem claim6 (store : Store) (as : List SegmentPosition) (obj : ObjectRow)
    (ha : posSorted as) (hr : rowsSorted store.segments)
    (hobj : store.object = some obj) (hpend : obj.status = ObjectStatus.pending)
    (hsub : ∀ a ∈ as, a ∈ store.segments.map SegmentRow.position) :
    ((commitObjectWithSegments store as).1.segments.map SegmentRow.position =
      (store.segments.map SegmentRow.position).filter fun p => decide (p ∈ as)) ∧
    (commitObjectWithSegments store as).2 =
      Except.ok (committedObject (keptRows as store.segments),
        deletedInfos as store.segments) ∧
    determineCommitActions wA (wRows.map segmentInfo) =
      Except.ok ([⟨⟨0, 0⟩, 0, 4, 5⟩, ⟨⟨0, 2⟩, 7, 2, 7⟩], [⟨0, 1⟩]) ∧
    deletedInfos wA wRowsRemote = [⟨55, [3]⟩] ∧
    deletedInfos wA wRows = [] ∧
    (commitObjectWithSegments wStore wA).1.segments.map SegmentRow.position =
      [⟨0, 0⟩, ⟨0, 2⟩] := by
  rw [commitObjectWithSegments_ok store as obj ha hr hobj hpend hsub]
  refine ⟨?_, rfl, ?_, by decide, by decide, ?_⟩
  · show (withOffsets 0 (keptRows as store.segments)).map SegmentRow.position = _
    rw [withOffsets_map_position, keptRows_map_position]
  · simp [determineCommitActions, diffSegmentsWithDatabase, invalidOf, commitOf,
      toDeleteOf, wA, wRows, segmentInfo, SegmentPosition.less]
  · simp [commitObjectWithSegments, commitTx, verifySegmentOrder,
        verifySegmentOrderLoop, fetchSegmentsForCommit, determineCommitActions,
        diffSegmentsWithDatabase, invalidOf, commitOf, toDeleteOf,
        updateSegmentOffsets, computePlainOffsetUpdates, applyPlainOffsetUpdates,
        deleteSegmentsNotInCommit, deletedInfo, fixedSegmentSize, fixedLoop,
        segmentInfo, wStore, wRows, wA, SegmentPosition.less]

/-- Witness for C6 at the remote variant of the snapshot. -/
theorem claim6_witness :
    ((commitObjectWithSegments wStoreRemote wA).1.segments.map SegmentRow.position =
      (wStoreRemote.segments.map SegmentRow.position).filter fun p => decide (p ∈ wA)) ∧
    (commitObjectWithSegments wStoreRemote wA).2 =
      Except.ok (committedObject (keptRows wA wStoreRemote.segments),
        deletedInfos wA wStoreRemote.segments) ∧
    determineCommitActions wA (wRows.map segmentInfo) =
      Except.ok ([⟨⟨0, 0⟩, 0, 4, 5⟩, ⟨⟨0, 2⟩, 7, 2, 7⟩], [⟨0, 1⟩]) ∧
    deletedInfos wA wRowsRemote = [⟨55, [3]⟩] ∧
    deletedInfos wA wRows = [] ∧
    (commitObjectWithSegments wStore wA).1.segments.map SegmentRow.position =
      [⟨0, 0⟩, ⟨0, 2⟩] :=
  claim6 wStoreRemote wA ⟨ObjectStatus.pending, 0, 0, 0, 0⟩ (by decide) (by decide)
    rfl rfl (by decide)

/-- C8: when the client list is exactly the store's (sorted, duplicate-free)
position list and the snapshot satisfies the offset invariant, reconciliation
keeps everything with an empty delete set, the offset rewriter computes an
empty update set, and the commit leaves the segment rows untouched. -/
theorem claim8 (store : Store) (as : List SegmentPosition)
    (ha : posSorted as) (hr : rowsSorted store.segments)
    (heq : store.segments.map SegmentRow.position = as)
    (hinv : store.segments = withOffsets 0 store.segments) :
    determineCommitActions as (fetchSegmentsForCommit store) =
      Except.ok (store.segments.map toCommit, []) ∧
    computePlainOffsetUpdates 0 (store.segments.map toCommit) = [] ∧
    (commitObjectWithSegments store as).1.segments = store.segments := by
  have hsub : ∀ a ∈ as, a ∈ store.segments.map SegmentRow.position := by
    rw [heq]
    exact fun a h => h
  have hkeq : keptRows as store.segments = store.segments := by
    unfold keptRows
    refine List.filter_eq_self.mpr fun r hrm => ?_
    have : r.position ∈ as := heq ▸ List.mem_map.mpr ⟨r, hrm, rfl⟩
    simpa using this
  have hdrop : store.segments.filter (fun r => decide (r.position ∉ as)) = [] := by
    refine List.filter_eq_nil_iff.mpr fun r hrm => ?_
    have : r.position ∈ as := heq ▸ List.mem_map.mpr ⟨r, hrm, rfl⟩
    simpa using this
  refine ⟨?_, computePlainOffsetUpdates_of_invariant store.segments hinv, ?_⟩
  · rw [show fetchSegmentsForCommit store = store.segments.map segmentInfo from rfl,
      determineCommitActions_ok as store.segments ha hr hsub, hkeq, hdrop]
    simp
  · rcases hob : store.object with _ | obj
    · rw [commitObjectWithSegments_notFound store as ha hr hsub
        (fun o h => by rw [hob] at h; cases h)]
    · by_cases hp : obj.status = ObjectStatus.pending
      · rw [commitObjectWithSegments_ok store as obj ha hr hob hp hsub]
        show withOffsets 0 (keptRows as store.segments) = store.segments
        rw [hkeq, ← hinv]
      · rw [commitObjectWithSegments_notFound store as ha hr hsub
          (fun o h => by rw [hob] at h; cases h; exact hp)]

/-- Witness for C8: re-committing the full position list of the clean
snapshot is a no-op on the segment rows. -/
theorem claim8_witness :
    determineCommitActions wAFull (fetchSegmentsForCommit wStore) =
      Except.ok (wStore.segments.map toCommit, []) ∧
    computePlainOffsetUpdates 0 (wStore.segments.map toCommit) = [] ∧
    (commitObjectWithSegments wStore wAFull).1.segments = wStore.segments :=
  claim8 wStore wAFull (by decide) (by decide) (by decide) (by decide)

/-- C9: with the store serializing the two transactions, the first commit
succeeds and the second call for the same stream then observes a
non-pending object row: it fails with the `notFound` error and its offset
and delete work is rolled back (the store is returned unchanged), so the
stream is never committed twice. -/
theorem claim9 (store : Store) (as : List SegmentPosition) (obj : ObjectRow)
    (ha : posSorted as) (hr : rowsSorted store.segments)
    (hobj : store.object = some obj) (hpend : obj.status = ObjectStatus.pending)
    (hsub : ∀ a ∈ as, a ∈ store.segments.map SegmentRow.position) :
    (commitObjectWithSegments store as).2 =
      Except.ok (committedObject (keptRows as store.segments),
        deletedInfos as store.segments) ∧
    commitObjectWithSegments (commitObjectWithSegments store as).1 as =
      ((commitObjectWithSegments store as).1, Except.error CommitError.notFound) := by
  have hmain := commitObjectWithSegments_ok store as obj ha hr hobj hpend hsub
  constructor
  · rw [hmain]
  · rw [hmain]
    apply commitObjectWithSegments_notFound
    · exact ha
    · exact rowsSorted_withOffsets (keptRows_sorted hr)
    · intro a hamem
      show a ∈ (withOffsets 0 (keptRows as store.segments)).map SegmentRow.position
      rw [withOffsets_map_position, keptRows_positions_eq ha hr hsub]
      exact hamem
    · intro o h
      have ho := Option.some.inj h
      rw [← ho]
      simp [committedObject]

/-- Witness for C9 at the example store: the replayed call fails with
`notFound` and changes nothing. -/
theorem claim9_witness :
    (commitObjectWithSegments wStore wA).2 =
      Except.ok (committedObject (keptRows wA wStore.segments),
        deletedInfos wA wStore.segments) ∧
    commitObjectWithSegments (commitObjectWithSegments wStore wA).1 wA =
      ((commitObjectWithSegments wStore wA).1, Except.error CommitError.notFound) :=
  claim9 wStore wA ⟨ObjectStatus.pending, 0, 0, 0, 0⟩ (by decide) (by decide)
    rfl rfl (by decide)

/-- C10: a successful commit returns an object whose segment count equals
the length of the client-submitted list: every submitted position
contributes exactly one kept segment. -/
theorem claim10 (store : Store) (as : List SegmentPosition) (obj : ObjectRow)
    (ha : posSorted as) (hr : rowsSorted store.segments)
    (hobj : store.object = some obj) (hpend : obj.status = ObjectStatus.pending)
    (hsub : ∀ a ∈ as, a ∈ store.segments.map SegmentRow.position) :
    (commitObjectWithSegments store as).2 =
      Except.ok (committedObject (keptRows as store.segments),
        deletedInfos as store.segments) ∧
    (committedObject (keptRows as store.segments)).segmentCount =
      (as.length : Int) := by
  constructor
  · rw [commitObjectWithSegments_ok store as obj ha hr hobj hpend hsub]
  · have hlen : (keptRows as store.segments).length = as.length := by
      calc (keptRows as store.segments).length
          = ((keptRows as store.segments).map SegmentRow.position).length :=
            (List.length_map _ _).symm
        _ = as.length := by rw [keptRows_positions_eq ha hr hsub]
    simp [committedObject, hlen]

/-- Witness for C10: committing two positions yields segment count 2. -/
theorem claim10_witness :
    (commitObjectWithSegments wStore wA).2 =
      Except.ok (committedObject (keptRows wA wStore.segments),
        deletedInfos wA wStore.segments) ∧
    (committedObject (keptRows wA wStore.segments)).segmentCount =
      (wA.length : Int) :=
  claim10 wStore wA ⟨ObjectStatus.pending, 0, 0, 0, 0⟩ (by decide) (by decide)
    rfl rfl (by decide)

end Metabase
